import Mathlib

/-!
Verification of the distributed dense matrix multiplication engine
(`examples/slurm-jobs/matrix-mult.c`).

Matrices are modelled as flat row-major lists of exact rationals (the C
program uses `double`; the arithmetic is modelled exactly, while the
summation order of the kernel is captured syntactically by a left fold).
The MPI collectives are modelled by their data-movement semantics:
`MPI_Scatter` hands rank `r` the `r`-th contiguous block of the root
buffer, `MPI_Bcast` replicates the root buffer, `MPI_Gather` concatenates
the per-rank buffers in rank order.  The control flow of `main` (validation,
allocation, collectives, cleanup, exit status) is modelled separately as an
event trace.
-/

namespace MatMul

/-- One inner-product accumulation of the kernel: the value the `k` loop of
`multiply_matrices` leaves in `C_local[i*n+j]`, as a left fold in increasing
`k` order (the summation order of the C code). -/
def kernelElem (A B : List ℚ) (n i j : ℕ) : ℚ :=
  (List.range n).foldl (fun acc k => acc + A.getD (i*n+k) 0 * B.getD (k*n+j) 0) 0

/-- Translation of `multiply_matrices(A_local, B, C_local, local_rows, n)`:
for each `i < local_rows` and `j < n` the cell `C_local[i*n+j]` is first
zeroed and then accumulates `A_local[i*n+k] * B[k*n+j]` for `k = 0..n-1`.
The mutated `C_local` buffer is returned. -/
def multiply_matrices (A_local B C_local : List ℚ) (local_rows n : ℕ) : List ℚ :=
  (List.range local_rows).foldl (fun C0 i =>
    (List.range n).foldl (fun C1 j =>
      (List.range n).foldl (fun C2 k =>
        C2.set (i*n+j) (C2.getD (i*n+j) 0 + A_local.getD (i*n+k) 0 * B.getD (k*n+j) 0))
        (C1.set (i*n+j) 0))
      C0)
    C_local

/-- Row-major list of kernel results: the value of the `C_local` buffer after
`multiply_matrices` runs (established by `multiply_matrices_eq_rm`). -/
def multiplyRM (A B : List ℚ) (local_rows n : ℕ) : List ℚ :=
  (List.range local_rows).flatMap (fun i => (List.range n).map (fun j => kernelElem A B n i j))

/-- `MPI_Scatter(A, local_rows*n, ...)`: rank `r` receives the elements
`[r*(local_rows*n), (r+1)*(local_rows*n))` of the root buffer `A`,
i.e. rows `r*local_rows .. (r+1)*local_rows - 1`. -/
def scatterBlock (A : List ℚ) (local_rows n r : ℕ) : List ℚ :=
  (A.drop (r * (local_rows * n))).take (local_rows * n)

/-- The `for (i..n*n) B_local[i] = B[i]` copy loop run by rank 0. -/
def copyLoop (B Bl : List ℚ) (nn : ℕ) : List ℚ :=
  (List.range nn).foldl (fun acc i => acc.set i (B.getD i 0)) Bl

/-- `MPI_Bcast`: every rank's buffer becomes the root's buffer. -/
def bcast (bufs : ℕ → List ℚ) (root : ℕ) : ℕ → List ℚ := fun _ => bufs root

/-- The broadcast phase of `main`: rank 0 first copies its full `B` into its own
`B_local` element-wise, then `MPI_Bcast` replicates rank 0's `B_local` to every
rank.  `Binit r` is the (uninitialized) content of rank `r`'s `B_local`. -/
def postBcastB (B : List ℚ) (Binit : ℕ → List ℚ) (nn : ℕ) : ℕ → List ℚ :=
  bcast (fun r => if r = 0 then copyLoop B (Binit 0) nn else Binit r) 0

/-- `MPI_Gather`: the root's buffer is the concatenation of the per-rank
buffers in rank order. -/
def gatherParts (N : ℕ) (Clocal : ℕ → List ℚ) : List ℚ :=
  ((List.range N).map Clocal).flatten

/-- The distribute–compute–gather pipeline of `main` for a valid problem:
scatter rows of `A`, broadcast `B`, run `multiply_matrices` on each rank, and
gather the per-rank `C_local` buffers on the coordinator.  `Binit`/`Cinit`
give the uninitialized contents of each rank's freshly allocated local
buffers. -/
def pipeline (n N : ℕ) (A B : List ℚ) (Binit Cinit : ℕ → List ℚ) : List ℚ :=
  gatherParts N (fun r =>
    multiply_matrices (scatterBlock A (n/N) n r) (postBcastB B Binit (n*n) r)
      (Cinit r) (n/N) n)

/-- Modelled from the spec: the standard sequential matrix product,
`C[i][j] = Σ_k A[i][k] * B[k][j]`, row-major. -/
def matmulSpec (A B : List ℚ) (n : ℕ) : List ℚ :=
  (List.range n).flatMap (fun i => (List.range n).map (fun j =>
    ∑ k ∈ Finset.range n, A.getD (i*n+k) 0 * B.getD (k*n+j) 0))

/-- The n×n identity matrix, row-major. -/
def identityMatrix (n : ℕ) : List ℚ :=
  (List.range n).flatMap (fun i => (List.range n).map (fun j => if i = j then 1 else 0))

/-- Memory-level translation of `multiply_matrices`: the three buffers live in
one flat store at offsets `aOff`, `bOff`, `cOff`; every write of the C function
targets `cOff + (i*n+j)`. -/
def multiply_matricesMem (mem : ℕ → ℚ) (aOff bOff cOff lr n : ℕ) : ℕ → ℚ :=
  (List.range lr).foldl (fun m0 i =>
    (List.range n).foldl (fun m1 j =>
      (List.range n).foldl (fun m2 k =>
        Function.update m2 (cOff+(i*n+j))
          (m2 (cOff+(i*n+j)) + m2 (aOff+(i*n+k)) * m2 (bOff+(k*n+j))))
        (Function.update m1 (cOff+(i*n+j)) 0))
      m0)
    mem

/-- Row `i` of a row-major `_ × n` buffer. -/
def rowOf (A : List ℚ) (n i : ℕ) : List ℚ := (A.drop (i*n)).take n

/-- The set of row indices of `A` the scatter delivers to rank `r`:
`local_rows = n / N` consecutive rows starting at row `r * local_rows`. -/
def assignedRows (n N r : ℕ) : Finset ℕ :=
  Finset.Ico (r*(n/N)) (r*(n/N) + n/N)

/-- Tags for the console output of `main` (one tag per `printf` site; the
multi-line configuration and results blocks are each one tag). -/
inductive Msg where
  | errSize
  | errDivis
  | config
  | initFull
  | matrixDump
  | blank
  | distributing
  | broadcasting
  | computing
  | gathering
  | results
  | allocFail
deriving DecidableEq

/-- Observable events of one rank's execution of `main`.  Buffers are numbered
0 = `A_local`, 1 = `B_local`, 2 = `C_local`, 3 = `A`, 4 = `B`, 5 = `C`;
an `alloc` event is recorded only when the corresponding `malloc` succeeds. -/
inductive Event where
  | msg (rank : ℕ) (m : Msg)
  | alloc (buf : ℕ)
  | free (buf : ℕ)
  | barrier
  | scatter
  | bcast
  | gather
  | finalize
  | abort
deriving DecidableEq

/-- How the process leaves `main`: a `return code` after `MPI_Finalize`, or a
group-wide `MPI_Abort`. -/
inductive ExitKind where
  | normal (code : ℕ)
  | aborted
deriving DecidableEq

structure RunResult where
  events : List Event
  exit : ExitKind
deriving DecidableEq

def Event.isAlloc : Event → Bool
  | .alloc _ => true
  | _ => false

def Event.isCollective : Event → Bool
  | .barrier => true
  | .scatter => true
  | .bcast => true
  | .gather => true
  | _ => false

def Event.isMsg : Event → Bool
  | .msg _ _ => true
  | _ => false

/-- Control-flow model of `main` for one rank, as the trace of its observable
events and its exit.  `n` is the `atoi` result (an `int`), `N` is
`world_size`, `allocOk i` tells whether the `i`-th `malloc` of this rank
succeeds.  Mirrors the source order: validation (each check prints on rank 0
only and returns 1), configuration print, the three local `malloc`s, abort on
local allocation failure, rank 0's full-matrix `malloc`s and initialization,
barrier, scatter, broadcast, compute, gather, barrier, result report, frees,
`MPI_Finalize`, return 0. -/
def mainRun (n : ℤ) (N : ℕ) (rank : ℕ) (allocOk : ℕ → Bool) : RunResult :=
  if n < (N:ℤ) then
    { events := (if rank = 0 then [Event.msg 0 Msg.errSize] else []) ++ [Event.finalize]
      exit := ExitKind.normal 1 }
  else if n % (N:ℤ) ≠ 0 then
    { events := (if rank = 0 then [Event.msg 0 Msg.errDivis] else []) ++ [Event.finalize]
      exit := ExitKind.normal 1 }
  else
    let cfg : List Event := if rank = 0 then [Event.msg 0 Msg.config] else []
    let localAllocs : List Event :=
      (if allocOk 0 then [Event.alloc 0] else []) ++
      (if allocOk 1 then [Event.alloc 1] else []) ++
      (if allocOk 2 then [Event.alloc 2] else [])
    if allocOk 0 ∧ allocOk 1 ∧ allocOk 2 then
      if rank = 0 then
        let fullAllocs : List Event :=
          (if allocOk 3 then [Event.alloc 3] else []) ++
          (if allocOk 4 then [Event.alloc 4] else []) ++
          (if allocOk 5 then [Event.alloc 5] else [])
        if allocOk 3 ∧ allocOk 4 ∧ allocOk 5 then
          { events := cfg ++ localAllocs ++ [Event.msg 0 Msg.initFull] ++ fullAllocs ++
              (if n ≤ 10 then [Event.msg 0 Msg.matrixDump, Event.msg 0 Msg.matrixDump]
                else []) ++
              [Event.msg 0 Msg.blank, Event.barrier, Event.msg 0 Msg.distributing,
                Event.scatter, Event.msg 0 Msg.broadcasting, Event.bcast,
                Event.msg 0 Msg.computing, Event.msg 0 Msg.gathering, Event.gather,
                Event.barrier] ++
              (if n ≤ 10 then [Event.msg 0 Msg.matrixDump] else []) ++
              [Event.msg 0 Msg.blank, Event.msg 0 Msg.results,
                Event.free 0, Event.free 1, Event.free 2,
                Event.free 3, Event.free 4, Event.free 5, Event.finalize]
            exit := ExitKind.normal 0 }
        else
          { events := cfg ++ localAllocs ++ [Event.msg 0 Msg.initFull] ++ fullAllocs ++
              [Event.msg 0 Msg.allocFail, Event.abort]
            exit := ExitKind.aborted }
      else
        { events := localAllocs ++
            [Event.barrier, Event.scatter, Event.bcast, Event.gather, Event.barrier,
              Event.free 0, Event.free 1, Event.free 2, Event.finalize]
          exit := ExitKind.normal 0 }
    else
      { events := cfg ++ localAllocs ++ [Event.msg rank Msg.allocFail, Event.abort]
        exit := ExitKind.aborted }

theorem getD_set_self {l : List ℚ} {p : ℕ} (h : p < l.length) (a : ℚ) :
    (l.set p a).getD p 0 = a := by
  simp [List.getD_eq_getElem?_getD, List.getElem?_set_self h]

theorem getD_set_ne {l : List ℚ} {p q : ℕ} (h : p ≠ q) (a : ℚ) :
    (l.set p a).getD q 0 = l.getD q 0 := by
  simp [List.getD_eq_getElem?_getD, List.getElem?_set_ne h]

/-- Collapsing the accumulation loop: a fold of read-modify-write updates of a
single cell equals one write of the folded value. -/
theorem foldl_set_accum (f : ℕ → ℚ) (ks : List ℕ) :
    ∀ (C : List ℚ) (p : ℕ), p < C.length → ∀ (v : ℚ),
      ks.foldl (fun Cc k => Cc.set p (Cc.getD p 0 + f k)) (C.set p v)
        = C.set p (ks.foldl (fun acc k => acc + f k) v) := by
  induction ks with
  | nil => intro C p _ v; rfl
  | cons k ks ih =>
      intro C p hp v
      simp only [List.foldl_cons]
      rw [getD_set_self hp, List.set_set]
      exact ih C p hp (v + f k)

/-- Collapsing a row-write loop: consecutive writes at `base`, `base+1`, ...,
`base+m-1` replace that segment of the buffer. -/
theorem foldl_set_range (e : ℕ → ℚ) :
    ∀ (m : ℕ) (C : List ℚ) (base : ℕ), base + m ≤ C.length →
      (List.range m).foldl (fun Cc j => Cc.set (base+j) (e j)) C
        = C.take base ++ (List.range m).map e ++ C.drop (base+m) := by
  intro m
  induction m with
  | zero => intro C base _; simp
  | succ m ih =>
      intro C base h
      have hble : base ≤ C.length := by omega
      have hbm : base + m < C.length := by omega
      rw [List.range_succ, List.foldl_append, ih C base (by omega)]
      simp only [List.foldl_cons, List.foldl_nil]
      have hs : (C.take base ++ (List.range m).map e).length = base + m := by
        simp [Nat.min_eq_left hble]
      rw [List.set_append_right _ _ hs.le, hs]
      have hidx : base + m - (base + m) = 0 := by omega
      rw [hidx, List.drop_eq_getElem_cons hbm]
      simp only [List.set_cons_zero, List.map_append]
      simp only [List.append_assoc, List.map_cons, List.map_nil, List.cons_append,
        List.nil_append, List.singleton_append]
      rw [Nat.add_assoc]

/-- Length of a flat map of constant-length rows. -/
theorem length_flatMap_const {f : ℕ → List ℚ} {c : ℕ} (hf : ∀ i, (f i).length = c) :
    ∀ m : ℕ, ((List.range m).flatMap f).length = m * c := by
  intro m
  induction m with
  | zero => simp
  | succ m ih =>
      rw [List.range_succ, List.flatMap_append, List.length_append, ih]
      simp [hf m, Nat.succ_mul]

theorem length_multiplyRM (A B : List ℚ) (lr n : ℕ) :
    (multiplyRM A B lr n).length = lr * n := by
  exact length_flatMap_const (fun i => by simp) lr

/-- The `j` loop of `multiply_matrices` on row `i` is a sequence of single
writes of the already-folded inner products. -/
theorem row_loop_eq (A B : List ℚ) (n i : ℕ) :
    ∀ (js : List ℕ) (C1 : List ℚ), (∀ j ∈ js, i*n+j < C1.length) →
      js.foldl (fun Cc j =>
        (List.range n).foldl (fun C2 k =>
          C2.set (i*n+j) (C2.getD (i*n+j) 0 + A.getD (i*n+k) 0 * B.getD (k*n+j) 0))
          (Cc.set (i*n+j) 0)) C1
        = js.foldl (fun Cc j => Cc.set (i*n+j) (kernelElem A B n i j)) C1 := by
  intro js
  induction js with
  | nil => intro C1 _; rfl
  | cons j js ih =>
      intro C1 hlen
      simp only [List.foldl_cons]
      rw [foldl_set_accum _ _ C1 (i*n+j) (hlen j (by simp)) 0]
      have : (List.range n).foldl
          (fun acc k => acc + A.getD (i*n+k) 0 * B.getD (k*n+j) 0) 0
          = kernelElem A B n i j := rfl
      rw [this]
      exact ih _ (fun j' hj' => by
        rw [List.length_set]; exact hlen j' (by simp [hj']))

/-- After `multiply_matrices` runs, the `C_local` buffer holds exactly the
row-major list of inner products. -/
theorem multiply_matrices_eq_rm (A B C : List ℚ) (lr n : ℕ) (hC : C.length = lr * n) :
    multiply_matrices A B C lr n = multiplyRM A B lr n := by
  have key : ∀ m : ℕ, m ≤ lr →
      (List.range m).foldl (fun C0 i =>
        (List.range n).foldl (fun C1 j =>
          (List.range n).foldl (fun C2 k =>
            C2.set (i*n+j) (C2.getD (i*n+j) 0 + A.getD (i*n+k) 0 * B.getD (k*n+j) 0))
            (C1.set (i*n+j) 0)) C0) C
        = multiplyRM A B m n ++ C.drop (m*n) := by
    intro m
    induction m with
    | zero => intro _; simp [multiplyRM]
    | succ m ih =>
        intro hm
        have hmlr : m ≤ lr := by omega
        rw [List.range_succ, List.foldl_append, ih hmlr]
        simp only [List.foldl_cons, List.foldl_nil]
        have hRMlen : (multiplyRM A B m n).length = m * n := length_multiplyRM A B m n
        have hDlen : (multiplyRM A B m n ++ C.drop (m*n)).length = lr * n := by
          rw [List.length_append, hRMlen, List.length_drop, hC]
          have : m * n ≤ lr * n := Nat.mul_le_mul_right n hmlr
          omega
        rw [row_loop_eq A B n m _ _ (fun j hj => by
          rw [hDlen]
          have hj' : j < n := List.mem_range.mp hj
          calc m*n+j < m*n+n := by omega
            _ = (m+1)*n := by ring
            _ ≤ lr*n := Nat.mul_le_mul_right n hm)]
        rw [foldl_set_range _ n _ (m*n) (by
          rw [hDlen]
          calc m*n+n = (m+1)*n := by ring
            _ ≤ lr*n := Nat.mul_le_mul_right n hm)]
        rw [List.take_left' hRMlen]
        have hdrop : (multiplyRM A B m n ++ C.drop (m*n)).drop (m*n+n)
            = C.drop ((m+1)*n) := by
          have : m*n+n = (multiplyRM A B m n).length + n := by rw [hRMlen]
          rw [this, List.drop_append, List.drop_drop]
          ring_nf
        rw [hdrop]
        have hRMsucc : multiplyRM A B (m+1) n
            = multiplyRM A B m n ++ (List.range n).map (fun j => kernelElem A B n m j) := by
          unfold multiplyRM
          rw [List.range_succ, List.flatMap_append]
          simp
        rw [hRMsucc, List.append_assoc]
  unfold multiply_matrices
  rw [key lr (le_refl lr), List.drop_eq_nil_of_le (by omega), List.append_nil]

theorem getD_append_left {l l' : List ℚ} {k : ℕ} (h : k < l.length) :
    (l ++ l').getD k 0 = l.getD k 0 := by
  simp [List.getD_eq_getElem?_getD, List.getElem?_append_left h]

theorem getD_append_right {l l' : List ℚ} {k : ℕ} (h : l.length ≤ k) :
    (l ++ l').getD k 0 = l'.getD (k - l.length) 0 := by
  simp [List.getD_eq_getElem?_getD, List.getElem?_append_right h]

theorem getD_map_range {g : ℕ → ℚ} {n j : ℕ} (h : j < n) :
    ((List.range n).map g).getD j 0 = g j := by
  simp [List.getD_eq_getElem?_getD, List.getElem?_range h]

/-- Reading a row-major flat map of rows at position `i*c+j` gives cell `(i,j)`. -/
theorem getD_rowMajor (f : ℕ → ℕ → ℚ) (c : ℕ) :
    ∀ (R i j : ℕ), i < R → j < c →
      ((List.range R).flatMap (fun i' => (List.range c).map (f i'))).getD (i*c+j) 0 = f i j := by
  intro R
  induction R with
  | zero => intro i j hi _; omega
  | succ R ih =>
      intro i j hi hj
      rw [List.range_succ, List.flatMap_append]
      have hlen : ((List.range R).flatMap (fun i' => (List.range c).map (f i'))).length
          = R * c := length_flatMap_const (fun _ => by simp) R
      rcases Nat.lt_or_ge i R with hiR | hiR
      · rw [getD_append_left (by
          rw [hlen]
          calc i*c+j < i*c+c := by omega
            _ = (i+1)*c := by ring
            _ ≤ R*c := Nat.mul_le_mul_right c hiR)]
        exact ih i j hiR hj
      · have hiR' : i = R := by omega
        subst hiR'
        rw [getD_append_right (by rw [hlen]; omega)]
        rw [hlen]
        simp only [List.flatMap_cons, List.flatMap_nil, List.append_nil]
        have hidx : i*c+j - i*c = j := by omega
        rw [hidx, getD_map_range hj]

theorem map_getD_range (l : List ℚ) :
    (List.range l.length).map (fun i => l.getD i 0) = l := by
  apply List.ext_getElem (by simp)
  intro q h1 h2
  simp [List.getD_eq_getElem?_getD, List.getElem?_eq_getElem h2]

/-- A left fold of additions over `range n` is the finite sum. -/
theorem foldl_add_eq_sum (f : ℕ → ℚ) :
    ∀ n : ℕ, (List.range n).foldl (fun a k => a + f k) 0 = ∑ k ∈ Finset.range n, f k := by
  have key : ∀ n v, (List.range n).foldl (fun a k => a + f k) v
      = v + ∑ k ∈ Finset.range n, f k := by
    intro n
    induction n with
    | zero => intro v; simp
    | succ n ih =>
        intro v
        rw [List.range_succ, List.foldl_append]
        simp only [List.foldl_cons, List.foldl_nil]
        rw [ih, Finset.sum_range_succ]
        ring
  intro n
  rw [key n 0, zero_add]

theorem kernelElem_eq_sum (A B : List ℚ) (n i j : ℕ) :
    kernelElem A B n i j = ∑ k ∈ Finset.range n, A.getD (i*n+k) 0 * B.getD (k*n+j) 0 :=
  foldl_add_eq_sum _ n

theorem getD_scatterBlock (A : List ℚ) (lr n r p : ℕ) (hp : p < lr*n) :
    (scatterBlock A lr n r).getD p 0 = A.getD (r*(lr*n) + p) 0 := by
  unfold scatterBlock
  simp [List.getD_eq_getElem?_getD, List.getElem?_take_of_lt hp, List.getElem?_drop]

theorem kernelElem_scatterBlock (A B : List ℚ) (lr n r i j : ℕ) (hi : i < lr) :
    kernelElem (scatterBlock A lr n r) B n i j = kernelElem A B n (r*lr+i) j := by
  unfold kernelElem
  apply List.foldl_ext
  intro acc k hk
  have hk' : k < n := List.mem_range.mp hk
  have hbound : i*n+k < lr*n := by
    calc i*n+k < i*n+n := by omega
      _ = (i+1)*n := by ring
      _ ≤ lr*n := Nat.mul_le_mul_right n hi
  rw [getD_scatterBlock A lr n r _ hbound]
  have : r*(lr*n) + (i*n+k) = (r*lr+i)*n+k := by ring
  rw [this]

/-- The rows of the scatter block for rank `r` are rows `r*lr+i` of `A`. -/
theorem multiplyRM_scatterBlock (A B : List ℚ) (lr n r : ℕ) :
    multiplyRM (scatterBlock A lr n r) B lr n
      = (List.range lr).flatMap
          (fun i => (List.range n).map (fun j => kernelElem A B n (r*lr+i) j)) := by
  unfold multiplyRM
  rw [List.flatMap_def, List.flatMap_def]
  congr 1
  apply List.map_congr_left
  intro i hi
  apply List.map_congr_left
  intro j _
  exact kernelElem_scatterBlock A B lr n r i j (List.mem_range.mp hi)

/-- Flattening a block-structured traversal of `range (a*b)`. -/
theorem flatMap_range_mul (g : ℕ → List ℚ) (b : ℕ) :
    ∀ a : ℕ, (List.range a).flatMap (fun r => (List.range b).flatMap (fun i => g (r*b+i)))
      = (List.range (a*b)).flatMap g := by
  intro a
  induction a with
  | zero => simp
  | succ a ih =>
      rw [List.range_succ, List.flatMap_append, ih, Nat.succ_mul, List.range_add,
        List.flatMap_append]
      congr 1
      rw [List.flatMap_map]
      simp

/-- Concatenating consecutive equal-sized chunks of a buffer restores its prefix. -/
theorem flatten_chunks (c : ℕ) (X : List ℚ) :
    ∀ m : ℕ, m*c ≤ X.length →
      ((List.range m).map (fun r => (X.drop (r*c)).take c)).flatten = X.take (m*c) := by
  intro m
  induction m with
  | zero => simp
  | succ m ih =>
      intro h
      rw [List.range_succ, List.map_append, List.flatten_append,
        ih (le_trans (Nat.mul_le_mul_right c (Nat.le_succ m)) h)]
      simp only [List.map_cons, List.map_nil, List.flatten_cons, List.flatten_nil,
        List.append_nil]
      rw [Nat.succ_mul, List.take_add]

theorem copyLoop_eq (B Bl : List ℚ) (nn : ℕ) (hB : B.length = nn) (hBl : Bl.length = nn) :
    copyLoop B Bl nn = B := by
  unfold copyLoop
  have key := foldl_set_range (fun i => B.getD i 0) nn Bl 0 (by omega)
  simp only [Nat.zero_add] at key
  rw [key, List.take_zero, List.drop_eq_nil_of_le (by omega), List.nil_append,
    List.append_nil]
  calc (List.range nn).map (fun i => B.getD i 0)
      = (List.range B.length).map (fun i => B.getD i 0) := by rw [hB]
    _ = B := map_getD_range B

theorem multiplyRM_eq_matmulSpec (A B : List ℚ) (n : ℕ) :
    multiplyRM A B n n = matmulSpec A B n := by
  unfold multiplyRM matmulSpec
  simp only [kernelElem_eq_sum]

/-- Central refinement lemma: the distributed pipeline equals the sequential
product for every valid problem. -/
theorem pipeline_eq_matmulSpec (n N : ℕ) (A B : List ℚ) (Binit Cinit : ℕ → List ℚ)
    (hN : 0 < N) (hdvd : N ∣ n) (hB : B.length = n*n)
    (hBi : (Binit 0).length = n*n) (hCi : ∀ r, (Cinit r).length = (n/N)*n) :
    pipeline n N A B Binit Cinit = matmulSpec A B n := by
  obtain ⟨lr, hlr⟩ := hdvd
  have hdiv : n / N = lr := by rw [hlr, Nat.mul_div_cancel_left lr hN]
  have hpost : ∀ r, postBcastB B Binit (n*n) r = B := by
    intro r
    unfold postBcastB bcast
    simp only [if_pos rfl]
    exact copyLoop_eq B (Binit 0) (n*n) hB hBi
  unfold pipeline gatherParts
  rw [← List.flatMap_def]
  have step1 : ∀ r ∈ List.range N,
      multiply_matrices (scatterBlock A (n/N) n r) (postBcastB B Binit (n*n) r)
        (Cinit r) (n/N) n
      = (List.range lr).flatMap
          (fun i => (List.range n).map (fun j => kernelElem A B n (r*lr+i) j)) := by
    intro r _
    rw [hpost r, multiply_matrices_eq_rm _ _ _ _ _ (hCi r), hdiv,
      multiplyRM_scatterBlock]
  have hbig : (List.range N).flatMap (fun r =>
      multiply_matrices (scatterBlock A (n/N) n r) (postBcastB B Binit (n*n) r)
        (Cinit r) (n/N) n)
      = (List.range N).flatMap (fun r => (List.range lr).flatMap
          (fun i => (List.range n).map (fun j => kernelElem A B n (r*lr+i) j))) := by
    rw [List.flatMap_def, List.flatMap_def]
    congr 1
    exact List.map_congr_left step1
  rw [hbig,
    flatMap_range_mul (fun i => (List.range n).map (fun j => kernelElem A B n i j)) lr N,
    ← hlr]
  exact multiplyRM_eq_matmulSpec A B n

/-- A fold whose every step leaves the addresses satisfying `P` untouched
leaves them untouched overall. -/
theorem foldl_frame {β : Type} (P : ℕ → Prop) (step : (ℕ → ℚ) → β → (ℕ → ℚ)) :
    ∀ (l : List β) (m : ℕ → ℚ),
      (∀ (m' : ℕ → ℚ) (x : β), x ∈ l → ∀ q, P q → step m' x q = m' q) →
      ∀ q, P q → l.foldl step m q = m q := by
  intro l
  induction l with
  | nil => intro m _ q _; rfl
  | cons x xs ih =>
      intro m hstep q hq
      simp only [List.foldl_cons]
      rw [ih (step m x) (fun m' y hy => hstep m' y (by simp [hy])) q hq]
      exact hstep m x (by simp) q hq

/-- C7: frame property of the kernel — no address below `cOff` or at
`cOff+lr*n` and beyond is ever written, so the (disjoint) regions holding
`A_local` and `B`, and all of the store beyond the `lr*n` cells of `C_local`,
are unchanged when `multiply_matrices` returns. -/
theorem multiply_matricesMem_frame (mem : ℕ → ℚ) (aOff bOff cOff lr n : ℕ)
    (q : ℕ) (hq : q < cOff ∨ cOff + lr*n ≤ q) :
    multiply_matricesMem mem aOff bOff cOff lr n q = mem q := by
  unfold multiply_matricesMem
  refine foldl_frame (fun q' => q' < cOff ∨ cOff + lr*n ≤ q') _ _ mem
    (fun m0 i hi q1 hq1 => ?_) q hq
  have hi' : i < lr := List.mem_range.mp hi
  refine foldl_frame (fun q' => q' < cOff ∨ cOff + lr*n ≤ q') _ _ m0
    (fun m1 j hj q2 hq2 => ?_) q1 hq1
  have hj' : j < n := List.mem_range.mp hj
  have hbound : i*n+j < lr*n := by
    calc i*n+j < i*n+n := by omega
      _ = (i+1)*n := by ring
      _ ≤ lr*n := Nat.mul_le_mul_right n hi'
  have hne : ∀ q', (q' < cOff ∨ cOff + lr*n ≤ q') → q' ≠ cOff + (i*n+j) := by
    intro q' hq' heq
    rcases hq' with h | h <;> omega
  rw [foldl_frame (fun q' => q' < cOff ∨ cOff + lr*n ≤ q') _ _ _
    (fun m2 k _ q3 hq3 => Function.update_noteq (hne q3 hq3) _ m2) q2 hq2]
  exact Function.update_noteq (hne q2 hq2) 0 m1

/-- Rank `r`'s scatter block is the concatenation, in increasing row order, of
rows `r*lr`, `r*lr+1`, ..., `r*lr+lr-1` of `A`. -/
theorem scatterBlock_eq_rows (A : List ℚ) (n N lr r : ℕ) (hlr : n = N*lr)
    (hA : A.length = n*n) (hr : r < N) :
    scatterBlock A lr n r
      = ((List.range lr).map (fun i => rowOf A n (r*lr+i))).flatten := by
  have hrow : ∀ i, rowOf A n (r*lr+i) = ((A.drop (r*(lr*n))).drop (i*n)).take n := by
    intro i
    unfold rowOf
    rw [List.drop_drop]
    congr 2
    ring
  have hlen : lr*n + r*(lr*n) ≤ A.length := by
    have h1 : lr*n + r*(lr*n) = (r+1)*(lr*n) := by ring
    have h2 : (r+1)*(lr*n) ≤ N*(lr*n) := Nat.mul_le_mul_right (lr*n) hr
    have h3 : A.length = N*(lr*n) := by rw [hA, hlr]; ring
    omega
  calc scatterBlock A lr n r
      = (A.drop (r*(lr*n))).take (lr*n) := rfl
    _ = ((List.range lr).map
          (fun i => ((A.drop (r*(lr*n))).drop (i*n)).take n)).flatten := by
        rw [flatten_chunks n (A.drop (r*(lr*n))) lr (by
          rw [List.length_drop]; omega)]
    _ = ((List.range lr).map (fun i => rowOf A n (r*lr+i))).flatten := by
        congr 1
        apply List.map_congr_left
        intro i _
        exact (hrow i).symm

/-- Reconstruction: listing a row-major buffer cell by cell rebuilds it. -/
theorem flatMap_rowMajor_getD (A : List ℚ) (n : ℕ) (hA : A.length = n*n) :
    (List.range n).flatMap (fun i => (List.range n).map (fun j => A.getD (i*n+j) 0))
      = A := by
  apply List.ext_getElem (by rw [length_flatMap_const (c := n) (fun _ => by simp) n, hA])
  intro q h1 h2
  have hq : q < n*n := by
    have := length_flatMap_const (f := fun i => (List.range n).map
      (fun j => A.getD (i*n+j) 0)) (c := n) (fun _ => by simp) n
    omega
  have hn : 0 < n := Nat.pos_of_ne_zero (by rintro rfl; omega)
  have hiq : q / n < n := (Nat.div_lt_iff_lt_mul hn).mpr (by rw [Nat.mul_comm] at hq ⊢; exact hq)
  have hjq : q % n < n := Nat.mod_lt q hn
  have hdecomp : q / n * n + q % n = q := by
    have := Nat.div_add_mod q n
    calc q / n * n + q % n = n * (q / n) + q % n := by ring_nf
      _ = q := Nat.div_add_mod q n
  have hL : ((List.range n).flatMap (fun i => (List.range n).map
      (fun j => A.getD (i*n+j) 0)))[q] = A.getD q 0 := by
    rw [← List.getD_eq_getElem _ 0 h1, ← hdecomp]
    rw [getD_rowMajor (fun i j => A.getD (i*n+j) 0) n n (q/n) (q%n) hiq hjq, hdecomp]
  rw [hL, List.getD_eq_getElem _ 0 h2]

/-- Multiplying by the identity on the right returns the left operand. -/
theorem matmulSpec_identity (A : List ℚ) (n : ℕ) (hA : A.length = n*n) :
    matmulSpec A (identityMatrix n) n = A := by
  unfold matmulSpec
  have hId : ∀ k j, k < n → j < n →
      (identityMatrix n).getD (k*n+j) 0 = if k = j then (1:ℚ) else 0 := by
    intro k j hk hj
    unfold identityMatrix
    exact getD_rowMajor (fun i j => if i = j then (1:ℚ) else 0) n n k j hk hj
  have hcell : ∀ i j, j < n →
      (∑ k ∈ Finset.range n, A.getD (i*n+k) 0 * (identityMatrix n).getD (k*n+j) 0)
        = A.getD (i*n+j) 0 := by
    intro i j hj
    rw [Finset.sum_congr rfl (fun k hk => by
      rw [hId k j (Finset.mem_range.mp hk) hj])]
    simp only [mul_ite, mul_one, mul_zero]
    rw [Finset.sum_ite_eq' (Finset.range n) j (fun k => A.getD (i*n+k) 0)]
    simp [Finset.mem_range.mpr hj]
  calc (List.range n).flatMap (fun i => (List.range n).map (fun j =>
        ∑ k ∈ Finset.range n, A.getD (i*n+k) 0 * (identityMatrix n).getD (k*n+j) 0))
      = (List.range n).flatMap (fun i => (List.range n).map (fun j =>
          A.getD (i*n+j) 0)) := by
        rw [List.flatMap_def, List.flatMap_def]
        congr 1
        apply List.map_congr_left
        intro i _
        apply List.map_congr_left
        intro j hj
        exact hcell i j (List.mem_range.mp hj)
    _ = A := flatMap_rowMajor_getD A n hA

/-- An invalid configuration is rejected in the validation step: the trace is
just the coordinator's diagnostic (if this rank is 0) and `MPI_Finalize`, with
exit status 1. -/
theorem mainRun_invalid (n : ℤ) (N rank : ℕ) (ok : ℕ → Bool)
    (hbad : n < (N:ℤ) ∨ n % (N:ℤ) ≠ 0) :
    mainRun n N rank ok
      = { events := (if rank = 0
            then [Event.msg 0 (if n < (N:ℤ) then Msg.errSize else Msg.errDivis)]
            else []) ++ [Event.finalize]
          exit := ExitKind.normal 1 } := by
  unfold mainRun
  by_cases hlt : n < (N:ℤ)
  · rw [if_pos hlt, if_pos hlt]
  · rw [if_neg hlt, if_neg hlt, if_pos (hbad.resolve_left hlt)]

/-- Shared consequences of rejecting an invalid configuration: exit status 1,
no allocation and no collective in the trace, and the diagnostic printed only
on rank 0. -/
theorem mainRun_invalid_props (n : ℤ) (N rank : ℕ) (ok : ℕ → Bool)
    (hbad : n < (N:ℤ) ∨ n % (N:ℤ) ≠ 0) :
    (mainRun n N rank ok).exit = ExitKind.normal 1
    ∧ (∀ e ∈ (mainRun n N rank ok).events, e.isAlloc = false ∧ e.isCollective = false)
    ∧ ((mainRun n N rank ok).events.filter Event.isMsg
        = if rank = 0
          then [Event.msg 0 (if n < (N:ℤ) then Msg.errSize else Msg.errDivis)]
          else []) := by
  rw [mainRun_invalid n N rank ok hbad]
  refine ⟨rfl, ?_, ?_⟩
  · intro e he
    by_cases hr : rank = 0
    · simp only [if_pos hr, List.cons_append, List.nil_append, List.mem_cons,
        List.not_mem_nil, or_false] at he
      rcases he with rfl | rfl <;> exact ⟨rfl, rfl⟩
    · simp only [if_neg hr, List.nil_append, List.mem_cons, List.not_mem_nil,
        or_false] at he
      subst he; exact ⟨rfl, rfl⟩
  · by_cases hr : rank = 0 <;>
      simp [hr, List.filter, Event.isMsg]

/-- C8 (amended): on every normal exit path of `main` (validation failure or
full success) every buffer that was allocated is freed; on the abort path
taken on allocation failure the group is aborted with buffers still allocated
(see the counterexample). -/
theorem mainRun_normal_balanced (n : ℤ) (N rank : ℕ) (ok : ℕ → Bool) (c : ℕ)
    (hexit : (mainRun n N rank ok).exit = ExitKind.normal c) :
    ∀ b, (Event.alloc b ∈ (mainRun n N rank ok).events
      ↔ Event.free b ∈ (mainRun n N rank ok).events) := by
  intro b
  by_cases hlt : n < (N:ℤ)
  · simp [mainRun, hlt]
  · by_cases hmod : n % (N:ℤ) ≠ 0
    · simp [mainRun, hlt, hmod]
    · by_cases hok : ok 0 = true ∧ ok 1 = true ∧ ok 2 = true
      · obtain ⟨h0, h1, h2⟩ := hok
        by_cases hr : rank = 0
        · by_cases hok2 : ok 3 = true ∧ ok 4 = true ∧ ok 5 = true
          · obtain ⟨h3, h4, h5⟩ := hok2
            by_cases h10 : n ≤ 10 <;>
              simp [mainRun, hlt, hmod, h0, h1, h2, h3, h4, h5, hr, h10]
          · exfalso
            simp [mainRun, hlt, hmod, h0, h1, h2, hr, hok2] at hexit
        · simp [mainRun, hlt, hmod, h0, h1, h2, hr]
      · exfalso
        simp [mainRun, hlt, hmod, hok] at hexit

/-- C1: for every valid problem (`N ≥ 1`, `n % N = 0`, `n ≥ N`) and every pair
of input matrices, the scatter–broadcast–multiply–gather pipeline produces on
the coordinator exactly the standard sequential product `A × B`; the right
side does not mention `N`, and the second conjunct states directly that any
other valid participant count computes the same result. -/
theorem pipeline_refines_seq (n N : ℕ) (A B : List ℚ) (Binit Cinit : ℕ → List ℚ)
    (hN : 0 < N) (hmod : n % N = 0) (_hge : N ≤ n) (_hA : A.length = n*n)
    (hB : B.length = n*n) (hBi : (Binit 0).length = n*n)
    (hCi : ∀ r, (Cinit r).length = (n/N)*n) :
    pipeline n N A B Binit Cinit = matmulSpec A B n
    ∧ ∀ (N' : ℕ) (Binit' Cinit' : ℕ → List ℚ), 0 < N' → n % N' = 0 →
        (Binit' 0).length = n*n → (∀ r, (Cinit' r).length = (n/N')*n) →
        pipeline n N' A B Binit' Cinit' = pipeline n N A B Binit Cinit := by
  have h1 := pipeline_eq_matmulSpec n N A B Binit Cinit hN
    (Nat.dvd_of_mod_eq_zero hmod) hB hBi hCi
  refine ⟨h1, fun N' Binit' Cinit' hN' hmod' hBi' hCi' => ?_⟩
  rw [h1, pipeline_eq_matmulSpec n N' A B Binit' Cinit' hN'
    (Nat.dvd_of_mod_eq_zero hmod') hB hBi' hCi']

/-- C1 witness: the spec's 2×2 example, `A = [[1,2],[3,4]]`,
`B = [[5,6],[7,8]]`, computed by 2 participants. -/
theorem pipeline_refines_seq_witness :
    (2:ℕ) % 2 = 0
    ∧ (pipeline 2 2 [1,2,3,4] [5,6,7,8] (fun _ => [0,0,0,0]) (fun _ => [0,0])
        = matmulSpec [1,2,3,4] [5,6,7,8] 2) :=
  ⟨by decide,
   (pipeline_refines_seq 2 2 [1,2,3,4] [5,6,7,8] (fun _ => [0,0,0,0])
      (fun _ => [0,0]) (by decide) (by decide) (by decide) (by decide) (by decide)
      (by decide) (fun _ => rfl)).1⟩

/-- C2: the kernel leaves in `C_local[i*n+j]` the left fold, in increasing `k`
order, of the products `A_local[i*n+k] * B[k*n+j]` (the accumulation order of
the C loop), and this value is the standard inner product
`Σ_k A_local[i][k] * B[k][j]`. -/
theorem multiply_matrices_cell (A B C : List ℚ) (lr n i j : ℕ)
    (hC : C.length = lr*n) (hi : i < lr) (hj : j < n) :
    (multiply_matrices A B C lr n).getD (i*n+j) 0
      = (List.range n).foldl (fun acc k => acc + A.getD (i*n+k) 0 * B.getD (k*n+j) 0) 0
    ∧ (multiply_matrices A B C lr n).getD (i*n+j) 0
      = ∑ k ∈ Finset.range n, A.getD (i*n+k) 0 * B.getD (k*n+j) 0 := by
  have h1 : (multiply_matrices A B C lr n).getD (i*n+j) 0 = kernelElem A B n i j := by
    rw [multiply_matrices_eq_rm A B C lr n hC]
    exact getD_rowMajor (fun i' j' => kernelElem A B n i' j') n lr i j hi hj
  exact ⟨h1, by rw [h1, kernelElem_eq_sum]⟩

/-- C2 witness: a 1×2 slice against a 2×2 matrix. -/
theorem multiply_matrices_cell_witness :
    (0:ℕ) < 1
    ∧ ((multiply_matrices [1,2] [3,4,5,6] [0,0] 1 2).getD 1 0
        = (List.range 2).foldl
            (fun acc k => acc + ([1,2]:List ℚ).getD (0*2+k) 0
              * ([3,4,5,6]:List ℚ).getD (k*2+1) 0) 0
      ∧ (multiply_matrices [1,2] [3,4,5,6] [0,0] 1 2).getD 1 0
          = ∑ k ∈ Finset.range 2, ([1,2]:List ℚ).getD (0*2+k) 0
              * ([3,4,5,6]:List ℚ).getD (k*2+1) 0) :=
  ⟨by decide,
   multiply_matrices_cell [1,2] [3,4,5,6] [0,0] 1 2 0 1 (by decide) (by decide)
     (by decide)⟩

/-- C3: for an invalid configuration (`n < N` or `n % N ≠ 0`) every rank exits
the run with status 1; the trace contains no allocation and no collective
(scatter, broadcast, gather, barrier), and its only print is the diagnostic,
emitted exactly when this rank is the coordinator. -/
theorem invalid_config_rejected (n : ℤ) (N rank : ℕ) (ok : ℕ → Bool)
    (_hN : 1 ≤ N) (_hrank : rank < N) (hbad : n < (N:ℤ) ∨ n % (N:ℤ) ≠ 0) :
    (mainRun n N rank ok).exit = ExitKind.normal 1
    ∧ (∀ e ∈ (mainRun n N rank ok).events, e.isAlloc = false ∧ e.isCollective = false)
    ∧ ((mainRun n N rank ok).events.filter Event.isMsg
        = if rank = 0
          then [Event.msg 0 (if n < (N:ℤ) then Msg.errSize else Msg.errDivis)]
          else []) :=
  mainRun_invalid_props n N rank ok hbad

/-- C3 witness: the spec's `n = 5, N = 3` example, observed on rank 1. -/
theorem invalid_config_rejected_witness :
    ((5:ℤ) % (3:ℕ) ≠ 0)
    ∧ ((mainRun 5 3 1 (fun _ => true)).exit = ExitKind.normal 1
      ∧ (∀ e ∈ (mainRun 5 3 1 (fun _ => true)).events,
          e.isAlloc = false ∧ e.isCollective = false)
      ∧ ((mainRun 5 3 1 (fun _ => true)).events.filter Event.isMsg
          = if (1:ℕ) = 0
            then [Event.msg 0 (if (5:ℤ) < ((3:ℕ):ℤ) then Msg.errSize else Msg.errDivis)]
            else [])) :=
  ⟨by decide,
   invalid_config_rejected 5 3 1 (fun _ => true) (by decide) (by decide)
     (Or.inr (by decide))⟩

/-- C4: the scatter assigns rank `r` the contiguous, row-ordered block of
`local_rows = n / N` rows starting at row `r * local_rows`; the assigned row
index sets are pairwise disjoint and their union over all ranks is exactly the
`n` rows. -/
theorem scatter_partition (n N : ℕ) (A : List ℚ) (_hN : 0 < N) (hmod : n % N = 0)
    (hA : A.length = n*n) :
    (∀ r, r < N → scatterBlock A (n/N) n r
        = ((List.range (n/N)).map (fun i => rowOf A n (r*(n/N)+i))).flatten)
    ∧ (∀ r₁ r₂, r₁ < N → r₂ < N → r₁ ≠ r₂ →
        Disjoint (assignedRows n N r₁) (assignedRows n N r₂))
    ∧ (Finset.range N).biUnion (assignedRows n N) = Finset.range n := by
  have hdvd := Nat.dvd_of_mod_eq_zero hmod
  have hlr : n = N * (n/N) := by
    rw [Nat.mul_div_cancel' hdvd]
  refine ⟨fun r hr => scatterBlock_eq_rows A n N (n/N) r hlr hA hr, ?_, ?_⟩
  · have key : ∀ r₁ r₂ : ℕ, r₁ < r₂ → ∀ x, x ∈ assignedRows n N r₁ →
        x ∈ assignedRows n N r₂ → False := by
      intro r₁ r₂ h12 x hx1 hx2
      unfold assignedRows at hx1 hx2
      rw [Finset.mem_Ico] at hx1 hx2
      have h1 : (r₁+1)*(n/N) ≤ r₂*(n/N) := Nat.mul_le_mul_right (n/N) h12
      have h2 : r₁*(n/N) + n/N = (r₁+1)*(n/N) := by ring
      omega
    intro r₁ r₂ _ _ hne
    rw [Finset.disjoint_left]
    intro x hx1 hx2
    rcases Nat.lt_or_ge r₁ r₂ with h | h
    · exact key r₁ r₂ h x hx1 hx2
    · exact key r₂ r₁ (by omega) x hx2 hx1
  · ext x
    simp only [Finset.mem_biUnion, Finset.mem_range, assignedRows, Finset.mem_Ico]
    constructor
    · rintro ⟨r, hrN, hle, hlt⟩
      have h1 : (r+1)*(n/N) ≤ N*(n/N) := Nat.mul_le_mul_right (n/N) hrN
      have h2 : r*(n/N) + n/N = (r+1)*(n/N) := by ring
      omega
    · intro hx
      rcases Nat.eq_zero_or_pos (n/N) with h0 | hpos
      · rw [h0, Nat.mul_zero] at hlr
        omega
      · refine ⟨x/(n/N), (Nat.div_lt_iff_lt_mul hpos).mpr (by rw [← hlr]; exact hx),
          Nat.div_mul_le_self x (n/N), ?_⟩
        have hdm := Nat.div_add_mod x (n/N)
        have hm2 : x % (n/N) < n/N := Nat.mod_lt x hpos
        have hc : (n/N)*(x/(n/N)) = x/(n/N)*(n/N) := Nat.mul_comm _ _
        omega

/-- C4 witness: `n = 4`, `N = 2` on an explicit 4×4 matrix. -/
theorem scatter_partition_witness :
    (4:ℕ) % 2 = 0
    ∧ ((∀ r, r < 2 → scatterBlock (List.replicate 16 (0:ℚ)) (4/2) 4 r
          = ((List.range (4/2)).map
              (fun i => rowOf (List.replicate 16 (0:ℚ)) 4 (r*(4/2)+i))).flatten)
      ∧ (∀ r₁ r₂, r₁ < 2 → r₂ < 2 → r₁ ≠ r₂ →
          Disjoint (assignedRows 4 2 r₁) (assignedRows 4 2 r₂))
      ∧ (Finset.range 2).biUnion (assignedRows 4 2) = Finset.range 4) :=
  ⟨by decide,
   scatter_partition 4 2 (List.replicate 16 (0:ℚ)) (by decide) (by decide)
     (by decide)⟩

/-- C5: gathering the unmodified scatter blocks back in rank order reproduces
`A` exactly — the gather is the inverse of the scatter. -/
theorem scatter_gather_roundtrip (n N : ℕ) (A : List ℚ) (_hN : 0 < N)
    (hmod : n % N = 0) (hA : A.length = n*n) :
    gatherParts N (fun r => scatterBlock A (n/N) n r) = A := by
  have hdvd := Nat.dvd_of_mod_eq_zero hmod
  have hlr : n = N * (n/N) := by rw [Nat.mul_div_cancel' hdvd]
  have h : N*((n/N)*n) = A.length := by
    rw [hA]
    calc N*((n/N)*n) = (N*(n/N))*n := by ring
      _ = n*n := by rw [← hlr]
  unfold gatherParts scatterBlock
  rw [flatten_chunks ((n/N)*n) A N (le_of_eq h), h, List.take_length]

/-- C5 witness: `n = 2`, `N = 2`, `A = [[1,2],[3,4]]`. -/
theorem scatter_gather_roundtrip_witness :
    (2:ℕ) % 2 = 0
    ∧ gatherParts 2 (fun r => scatterBlock [1,2,3,4] (2/2) 2 r) = [1,2,3,4] :=
  ⟨by decide, scatter_gather_roundtrip 2 2 [1,2,3,4] (by decide) (by decide) (by decide)⟩

/-- C6: after the broadcast phase — rank 0 copying its full `B` element-wise
into its own `B_local` and `MPI_Bcast` replicating rank 0's buffer — every
rank's `B_local` is a bit-identical copy of `B`. -/
theorem broadcast_replicates (n rank : ℕ) (B : List ℚ) (Binit : ℕ → List ℚ)
    (hB : B.length = n*n) (hBi : (Binit 0).length = n*n) :
    postBcastB B Binit (n*n) rank = B := by
  unfold postBcastB bcast
  simp only [if_pos rfl]
  exact copyLoop_eq B (Binit 0) (n*n) hB hBi

/-- C6 witness: a 2×2 `B` observed on rank 3. -/
theorem broadcast_replicates_witness :
    ([5,6,7,8]:List ℚ).length = 2*2
    ∧ postBcastB [5,6,7,8] (fun _ => [0,0,0,0]) (2*2) 3 = [5,6,7,8] :=
  ⟨by decide,
   broadcast_replicates 2 3 [5,6,7,8] (fun _ => [0,0,0,0]) (by decide) (by decide)⟩

/-- C7 witness: with `C_local` at offset 8 of a 2×2 problem, address 3 (inside
the `A_local`/`B` regions) is unchanged by the kernel. -/
theorem multiply_matricesMem_frame_witness :
    ((3:ℕ) < 8 ∨ 8 + 2*2 ≤ 3)
    ∧ multiply_matricesMem (fun q => (q:ℚ)) 0 4 8 2 2 3 = ((3:ℕ):ℚ) :=
  ⟨Or.inl (by decide),
   multiply_matricesMem_frame (fun q => (q:ℚ)) 0 4 8 2 2 3 (Or.inl (by decide))⟩

/-- C8 counterexample: with the third local `malloc` failing (`allocOk i` only
for `i < 2`), the run takes the abort path with buffers 0 (`A_local`) and 1
(`B_local`) allocated and never freed — an exit path that terminates with
buffers still allocated. -/
theorem abort_leaks_buffers :
    (mainRun 2 1 0 (fun i => decide (i < 2))).exit = ExitKind.aborted
    ∧ Event.alloc 0 ∈ (mainRun 2 1 0 (fun i => decide (i < 2))).events
    ∧ Event.alloc 1 ∈ (mainRun 2 1 0 (fun i => decide (i < 2))).events
    ∧ Event.free 0 ∉ (mainRun 2 1 0 (fun i => decide (i < 2))).events
    ∧ Event.free 1 ∉ (mainRun 2 1 0 (fun i => decide (i < 2))).events := by
  decide

/-- C8 witness: a fully successful coordinator run exits normally and every
allocation is matched by a free. -/
theorem mainRun_normal_balanced_witness :
    (mainRun 2 1 0 (fun _ => true)).exit = ExitKind.normal 0
    ∧ ∀ b, (Event.alloc b ∈ (mainRun 2 1 0 (fun _ => true)).events
        ↔ Event.free b ∈ (mainRun 2 1 0 (fun _ => true)).events) :=
  ⟨by decide, mainRun_normal_balanced 2 1 0 (fun _ => true) 0 (by decide)⟩

/-- C9: running the distributed pipeline with the identity matrix as the right
operand returns the left operand `A`, for any valid participant count. -/
theorem pipeline_identity (n N : ℕ) (A : List ℚ) (Binit Cinit : ℕ → List ℚ)
    (hN : 0 < N) (hmod : n % N = 0) (hA : A.length = n*n)
    (hBi : (Binit 0).length = n*n) (hCi : ∀ r, (Cinit r).length = (n/N)*n) :
    pipeline n N A (identityMatrix n) Binit Cinit = A := by
  have hI : (identityMatrix n).length = n*n :=
    length_flatMap_const (c := n) (fun _ => by simp) n
  rw [pipeline_eq_matmulSpec n N A (identityMatrix n) Binit Cinit hN
    (Nat.dvd_of_mod_eq_zero hmod) hI hBi hCi]
  exact matmulSpec_identity A n hA

/-- C9 witness: `A = [[1,2],[3,4]]` times the 2×2 identity with one
participant. -/
theorem pipeline_identity_witness :
    (2:ℕ) % 1 = 0
    ∧ pipeline 2 1 [1,2,3,4] (identityMatrix 2) (fun _ => [0,0,0,0])
        (fun _ => [0,0,0,0]) = [1,2,3,4] :=
  ⟨by decide,
   pipeline_identity 2 1 [1,2,3,4] (fun _ => [0,0,0,0]) (fun _ => [0,0,0,0])
     (by decide) (by decide) (by decide) (by decide) (fun _ => rfl)⟩

/-- C10: any run whose parsed `n` is non-positive (zero, negative, or a
non-numeric string parsed as 0 by `atoi`) is rejected by the `n < N` size
check for every participant count `N ≥ 1`: status 1, the size diagnostic on
the coordinator only, and no allocation or collective in the trace. -/
theorem nonpositive_n_rejected (n : ℤ) (N rank : ℕ) (ok : ℕ → Bool)
    (hn : n ≤ 0) (hN : 1 ≤ N) :
    (mainRun n N rank ok).exit = ExitKind.normal 1
    ∧ (∀ e ∈ (mainRun n N rank ok).events, e.isAlloc = false ∧ e.isCollective = false)
    ∧ ((mainRun n N rank ok).events.filter Event.isMsg
        = if rank = 0 then [Event.msg 0 Msg.errSize] else []) := by
  have hlt : n < (N:ℤ) := by
    have h1 : (1:ℤ) ≤ (N:ℤ) := by exact_mod_cast hN
    omega
  have h := mainRun_invalid_props n N rank ok (Or.inl hlt)
  refine ⟨h.1, h.2.1, ?_⟩
  rw [h.2.2, if_pos hlt]

/-- C10 witness: `n = 0` (the `atoi` result for a non-numeric argument) with
two participants, observed on the coordinator. -/
theorem nonpositive_n_rejected_witness :
    ((0:ℤ) ≤ 0)
    ∧ ((mainRun 0 2 0 (fun _ => true)).exit = ExitKind.normal 1
      ∧ (∀ e ∈ (mainRun 0 2 0 (fun _ => true)).events,
          e.isAlloc = false ∧ e.isCollective = false)
      ∧ ((mainRun 0 2 0 (fun _ => true)).events.filter Event.isMsg
          = if (0:ℕ) = 0 then [Event.msg 0 Msg.errSize] else [])) :=
  ⟨by decide, nonpositive_n_rejected 0 2 0 (fun _ => true) (by decide) (by decide)⟩

end MatMul
